import Mathlib

/-!
Shallow embedding of `HW1_206567067_319001855.py`: an inverted index over a
document collection (`InvertedIndex`) and a stack-based postfix boolean query
evaluator (`BooleanRetrieval`) with sorted-merge AND/OR/NOT operations.

Python strings are modelled as Lean `String`s, and the Python string
operations used by the source (`split`, `replace`, `lower`, `strip`) are
modelled at the character-list level so that every definition is executable
by the kernel.  Python `dict`s (including `defaultdict(list)`) are modelled
as association lists in insertion order, which is exactly the iteration
order Python guarantees.
-/

namespace HW1

abbrev Posting := List Nat

/-- The `posting_list` attribute: a `defaultdict(list)` mapping a term to the
list of internal ids, modelled as an association list in insertion order. -/
abbrev Store := List (String × Posting)

/-! ### Python string primitives, modelled on character lists -/

/-- `str.split(' ')`: split at every single space, keeping empty pieces
(`'a  b'.split(' ') == ['a', '', 'b']`, `''.split(' ') == ['']`). -/
def splitSpaceAux : List Char → List (List Char)
  | [] => [[]]
  | c :: cs =>
    match splitSpaceAux cs with
    | [] => [[]]
    | t :: ts => if c = ' ' then [] :: t :: ts else (c :: t) :: ts

def pySplitSpace (s : String) : List String :=
  (splitSpaceAux s.data).map (fun cs => ⟨cs⟩)

/-- Pieces of a string cut at every whitespace character (empty pieces kept;
they are discarded by `pySplitWhite`, matching Python `str.split()`). -/
def splitWhiteAux : List Char → List (List Char)
  | [] => [[]]
  | c :: cs =>
    match splitWhiteAux cs with
    | [] => [[]]
    | t :: ts => if c.isWhitespace then [] :: t :: ts else (c :: t) :: ts

/-- `str.split()` (no argument): split on whitespace runs, no empty pieces. -/
def pySplitWhite (s : String) : List String :=
  ((splitWhiteAux s.data).filter (· ≠ [])).map (fun cs => ⟨cs⟩)

/-- `str.replace('\n', '')`: delete every newline character. -/
def removeNewlines (s : String) : String :=
  ⟨s.data.filter (fun c => c ≠ '\n')⟩

/-- `str.lower()`, character by character. -/
def pyLower (s : String) : String :=
  ⟨s.data.map Char.toLower⟩

/-- `str.strip()`: drop leading and trailing whitespace. -/
def pyStrip (s : String) : String :=
  ⟨(((s.data.dropWhile Char.isWhitespace).reverse).dropWhile Char.isWhitespace).reverse⟩

/-! ### The posting store (a Python `defaultdict(list)`) -/

/-- `self.posting_list[term].append(doc_id)`: append to the existing entry,
or create the entry (at the end, in insertion order) when the key is new. -/
def storeAppend : Store → String → Nat → Store
  | [], t, i => [(t, [i])]
  | (k, v) :: rest, t, i =>
    if k = t then (k, v ++ [i]) :: rest else (k, v) :: storeAppend rest t i

/-- `defaultdict(list).__getitem__`: reading an absent key inserts it with an
empty list (this side effect is exactly what `eval_boolean_query` triggers on
an unknown query term).  Returns the value together with the updated dict. -/
def ddGetItem (s : Store) (t : String) : Posting × Store :=
  match s.lookup t with
  | some v => (v, s)
  | none => ([], s ++ [(t, [])])

/-- `InvertedIndex.get_posting_list`: `self.posting_list.get(term, [])`,
side-effect free. -/
def get_posting_list (s : Store) (t : String) : Posting :=
  (s.lookup t).getD []

/-! ### Index construction -/

/-- One value of the `self.documents` dict: `{"contents": ..., "internal_id": ...}`
(the `internal_id` field holds the stripped original DOCNO string; the dict key
is the dense internal id). -/
structure DocEntry where
  contents : String
  internal_id : String
deriving DecidableEq

/-- One parsed document as handed to the build loop by
`extract_text_and_id`: the DOCNO string and the tag-stripped contents. -/
structure ParsedDoc where
  docno : String
  contents : String
deriving DecidableEq

/-- `InvertedIndex.update_posting_list`: split the contents on whitespace and
append the document id to every (non-empty) term's posting list. -/
def update_posting_list (store : Store) (document : String) (doc_id : Nat) : Store :=
  (pySplitWhite document).foldl
    (fun st term => if term ≠ "" then storeAppend st term doc_id else st) store

/-- `sorted(list(set(l)), key=lambda x: (x, self.documents[x]))`: dedup then
sort ascending.  The key `(x, documents[x])` orders by `x` alone because the
ids in one posting list are distinct integers. -/
def sortDedup (l : Posting) : Posting :=
  List.insertionSort (· ≤ ·) l.dedup

/-- `InvertedIndex.sort_posting_list`: finalize every term's posting list. -/
def sort_posting_list (store : Store) : Store :=
  store.map (fun p => (p.1, sortDedup p.2))

/-- The state of `InvertedIndex` after `__init__` finishes. -/
structure InvertedIndex where
  documents : List (Nat × DocEntry)
  posting_list : Store
deriving DecidableEq

/-- One iteration of the build loop in `InvertedIndex.__init__`:
`self.documents[i] = {...}; self.update_posting_list(contents, i); i += 1`. -/
def buildStep : (List (Nat × DocEntry) × Store × Nat) → ParsedDoc →
    (List (Nat × DocEntry) × Store × Nat)
  | (docs, store, i), d =>
    (docs ++ [(i, ⟨d.contents, pyStrip d.docno⟩)],
     update_posting_list store d.contents i,
     i + 1)

/-- `InvertedIndex.__init__`, given the ordered sequence of parsed documents
yielded by the upstream iteration over the collection files. -/
def buildIndex (ds : List ParsedDoc) : InvertedIndex :=
  let st := ds.foldl buildStep ([], [], 0)
  { documents := st.1, posting_list := sort_posting_list st.2.1 }

/-! ### Term-frequency report -/

/-- `{term: len(doc_ids) for term, doc_ids in self.posting_list.items()}`. -/
def term_frequencies (store : Store) : List (String × Nat) :=
  store.map (fun p => (p.1, p.2.length))

/-- Lexicographic `<=` on Python strings (code-point order), executable. -/
def charListLeb : List Char → List Char → Bool
  | [], _ => true
  | _ :: _, [] => false
  | a :: as, b :: bs => if a = b then charListLeb as bs else decide (a < b)

def strLeb (a b : String) : Bool := charListLeb a.data b.data

/-- The sort key of `top_bottom_n_terms`:
`key=lambda term_and_doc_freq: (term_and_doc_freq[1], term_and_doc_freq[0])`,
i.e. the tuple `(cardinality, term)` compared lexicographically. -/
def freqLE (a b : String × Nat) : Prop :=
  a.2 < b.2 ∨ (a.2 = b.2 ∧ strLeb a.1 b.1 = true)

/-- The reversed key order used when `reverse=top` is true. -/
def freqGE (a b : String × Nat) : Prop := freqLE b a

instance : DecidableRel freqLE := fun a b => by
  unfold freqLE; infer_instance

instance : DecidableRel freqGE := fun a b => by
  unfold freqGE freqLE; infer_instance

/-- `InvertedIndex.top_bottom_n_terms`: sort the `(term, cardinality)` pairs
by the key `(cardinality, term)`, descending when `top` (Python
`sorted(..., reverse=top)`; dict keys are distinct so the ordering is total
on the entries and stability is irrelevant), and take the first `n`. -/
def top_bottom_n_terms (store : Store) (n : Nat) (top : Bool) : List (String × Nat) :=
  (if top then List.insertionSort freqGE (term_frequencies store)
   else List.insertionSort freqLE (term_frequencies store)).take n

/-! ### Boolean retrieval -/

/-- `BooleanRetrieval.and_query`: sorted-merge intersection. -/
def and_query : Posting → Posting → Posting
  | [], _ => []
  | _, [] => []
  | a :: as, b :: bs =>
    if a = b then a :: and_query as bs
    else if a < b then and_query as (b :: bs)
    else and_query (a :: as) bs
termination_by l₁ l₂ => l₁.length + l₂.length

/-- `BooleanRetrieval.or_query`: sorted-merge union (the trailing
`res + ordered_list1[l1:] + ordered_list2[l2:]` appends the remainder of
whichever input is not yet exhausted). -/
def or_query : Posting → Posting → Posting
  | [], bs => bs
  | as, [] => as
  | a :: as, b :: bs =>
    if a = b then a :: or_query as bs
    else if a < b then a :: or_query as (b :: bs)
    else b :: or_query (a :: as) bs
termination_by l₁ l₂ => l₁.length + l₂.length

/-- `BooleanRetrieval.not_query`: complement of the second list against the
universe `all_docs` (the trailing `res + all_docs[l1:]` appends the remainder
of the universe once the second list is exhausted). -/
def not_query : Posting → Posting → Posting
  | [], _ => []
  | as, [] => as
  | a :: as, b :: bs =>
    if a = b then not_query as bs
    else if a < b then a :: not_query as (b :: bs)
    else not_query (a :: as) bs
termination_by l₁ l₂ => l₁.length + l₂.length

/-- The operator tokens: `operators = {'AND', 'OR', 'NOT'}`. -/
def operators : List String := ["AND", "OR", "NOT"]

/-- `query.replace('\n', '').split(' ')`. -/
def tokenize (q : String) : List String :=
  pySplitSpace (removeNewlines q)

/-- The token loop of `eval_boolean_query`.  The stack grows at the head (the
head is the most recently pushed value).  `none` models the `IndexError`
raised by `stack.pop()` on an empty stack (operator underflow).  A term token
is looked up lowercased in the `defaultdict`, which inserts an empty posting
list for an absent term — hence the store is threaded through. -/
def evalTokens (all_docs : Posting) :
    List String → List Posting → Store → Option (List Posting × Store)
  | [], stack, store => some (stack, store)
  | word :: rest, stack, store =>
    if word = "AND" then
      match stack with
      | list2 :: list1 :: stack' =>
        evalTokens all_docs rest (and_query list1 list2 :: stack') store
      | _ => none
    else if word = "OR" then
      match stack with
      | list2 :: list1 :: stack' =>
        evalTokens all_docs rest (or_query list1 list2 :: stack') store
      | _ => none
    else if word = "NOT" then
      match stack with
      | list1 :: stack' =>
        evalTokens all_docs rest (not_query all_docs list1 :: stack') store
      | _ => none
    else
      let r := ddGetItem store (pyLower word)
      evalTokens all_docs rest (r.1 :: stack) r.2

/-- The stack and store after the token loop of `eval_boolean_query` has
consumed the whole query (`all_docs = [i for i in range(len(documents))]`). -/
def finalStack (idx : InvertedIndex) (q : String) : Option (List Posting × Store) :=
  evalTokens (List.range idx.documents.length) (tokenize q) [] idx.posting_list

/-- `BooleanRetrieval.eval_boolean_query`: run the token loop, combine two
residual stack values with an implicit `AND`, and return `stack.pop()` — the
most recently pushed value; popping an empty stack raises (`none`).  The
result is paired with the final state of the shared `posting_list` store. -/
def eval_boolean_query (idx : InvertedIndex) (q : String) : Option (Posting × Store) :=
  match finalStack idx q with
  | none => none
  | some (stack, store) =>
    match stack with
    | [list2, list1] => some (and_query list1 list2, store)
    | [] => none
    | r :: _ => some (r, store)

/-! ### Lemmas about the sorted-merge operations -/

theorem and_query_nil_right (l : Posting) : and_query l [] = [] := by
  cases l <;> simp [and_query]

theorem or_query_nil_right (l : Posting) : or_query l [] = l := by
  cases l <;> simp [or_query]

theorem not_query_nil_right (l : Posting) : not_query l [] = l := by
  cases l <;> simp [not_query]

theorem and_query_self : ∀ A : Posting, and_query A A = A
  | [] => by simp [and_query]
  | a :: as => by simp [and_query, and_query_self as]

theorem or_query_self : ∀ A : Posting, or_query A A = A
  | [] => by simp [or_query]
  | a :: as => by simp [or_query, or_query_self as]

theorem and_query_cons_eq (a : Nat) (as bs : Posting) :
    and_query (a :: as) (a :: bs) = a :: and_query as bs := by
  simp [and_query]

theorem and_query_cons_lt {a b : Nat} (h : a < b) (as bs : Posting) :
    and_query (a :: as) (b :: bs) = and_query as (b :: bs) := by
  simp [and_query, Nat.ne_of_lt h, h]

theorem and_query_cons_gt {a b : Nat} (h : b < a) (as bs : Posting) :
    and_query (a :: as) (b :: bs) = and_query (a :: as) bs := by
  simp [and_query, Nat.ne_of_gt h, not_lt.2 h.le]

theorem or_query_cons_eq (a : Nat) (as bs : Posting) :
    or_query (a :: as) (a :: bs) = a :: or_query as bs := by
  simp [or_query]

theorem or_query_cons_lt {a b : Nat} (h : a < b) (as bs : Posting) :
    or_query (a :: as) (b :: bs) = a :: or_query as (b :: bs) := by
  simp [or_query, Nat.ne_of_lt h, h]

theorem or_query_cons_gt {a b : Nat} (h : b < a) (as bs : Posting) :
    or_query (a :: as) (b :: bs) = b :: or_query (a :: as) bs := by
  simp [or_query, Nat.ne_of_gt h, not_lt.2 h.le]

theorem not_query_cons_eq (a : Nat) (as bs : Posting) :
    not_query (a :: as) (a :: bs) = not_query as bs := by
  simp [not_query]

theorem not_query_cons_lt {a b : Nat} (h : a < b) (as bs : Posting) :
    not_query (a :: as) (b :: bs) = a :: not_query as (b :: bs) := by
  simp [not_query, Nat.ne_of_lt h, h]

theorem not_query_cons_gt {a b : Nat} (h : b < a) (as bs : Posting) :
    not_query (a :: as) (b :: bs) = not_query (a :: as) bs := by
  simp [not_query, Nat.ne_of_gt h, not_lt.2 h.le]

theorem and_query_sublist_left : ∀ A B : Posting, (and_query A B).Sublist A := by
  intro A B
  induction A, B using and_query.induct with
  | case1 B => simp [and_query]
  | case2 A h => rw [and_query_nil_right]; exact List.nil_sublist _
  | case3 as b bs ih => rw [and_query_cons_eq]; exact ih.cons₂ b
  | case4 a as b bs hne hlt ih => rw [and_query_cons_lt hlt]; exact ih.cons a
  | case5 a as b bs hne hnlt ih =>
    rw [and_query_cons_gt (lt_of_le_of_ne (not_lt.1 hnlt) (fun h => hne h.symm))]
    exact ih

theorem and_query_sublist_right : ∀ A B : Posting, (and_query A B).Sublist B := by
  intro A B
  induction A, B using and_query.induct with
  | case1 B => simp [and_query]
  | case2 A h => rw [and_query_nil_right]
  | case3 as b bs ih => rw [and_query_cons_eq]; exact ih.cons₂ b
  | case4 a as b bs hne hlt ih => rw [and_query_cons_lt hlt]; exact ih
  | case5 a as b bs hne hnlt ih =>
    rw [and_query_cons_gt (lt_of_le_of_ne (not_lt.1 hnlt) (fun h => hne h.symm))]
    exact ih.cons b

theorem and_query_sorted (A B : Posting) (hA : List.Sorted (· < ·) A) :
    List.Sorted (· < ·) (and_query A B) :=
  List.Pairwise.sublist (and_query_sublist_left A B) hA

theorem and_query_mem : ∀ A B : Posting, List.Sorted (· < ·) A →
    List.Sorted (· < ·) B → ∀ x, x ∈ and_query A B ↔ x ∈ A ∧ x ∈ B := by
  intro A B
  induction A, B using and_query.induct with
  | case1 B => simp [and_query]
  | case2 A h => rw [and_query_nil_right]; simp
  | case3 as b bs ih =>
    intro hA hB x
    have hbas := (List.sorted_cons.1 hA).1
    have hbbs := (List.sorted_cons.1 hB).1
    have ih' := ih (List.sorted_cons.1 hA).2 (List.sorted_cons.1 hB).2 x
    have h1 : x ∈ as → ¬x = b := fun h hb => absurd (hbas x h) (by simp [hb])
    have h2 : x ∈ bs → ¬x = b := fun h hb => absurd (hbbs x h) (by simp [hb])
    rw [and_query_cons_eq]
    simp only [List.mem_cons, ih']
    tauto
  | case4 a as b bs hne hlt ih =>
    intro hA hB x
    have ih' := ih (List.sorted_cons.1 hA).2 hB x
    have ha : ¬(a = b ∨ a ∈ bs) := by
      rintro (rfl | h)
      · exact hne rfl
      · exact absurd (lt_trans hlt ((List.sorted_cons.1 hB).1 a h)) (lt_irrefl a)
    rw [and_query_cons_lt hlt]
    simp only [List.mem_cons, ih']
    constructor
    · tauto
    · rintro ⟨rfl | hx, hx2⟩
      · exact absurd hx2 ha
      · exact ⟨hx, hx2⟩
  | case5 a as b bs hne hnlt ih =>
    intro hA hB x
    have ih' := ih hA (List.sorted_cons.1 hB).2 x
    have hba : b < a := lt_of_le_of_ne (not_lt.1 hnlt) (fun h => hne h.symm)
    have hb : ¬(b = a ∨ b ∈ as) := by
      rintro (rfl | h)
      · exact hne rfl
      · exact absurd (lt_trans hba ((List.sorted_cons.1 hA).1 b h)) (lt_irrefl b)
    rw [and_query_cons_gt hba]
    simp only [List.mem_cons, ih']
    constructor
    · tauto
    · rintro ⟨hx1, rfl | hx2⟩
      · exact absurd hx1 hb
      · exact ⟨hx1, hx2⟩

/-- Two strictly ascending lists with the same members are equal. -/
theorem sorted_lt_eq_of_mem_iff {l₁ l₂ : List Nat} (h₁ : List.Sorted (· < ·) l₁)
    (h₂ : List.Sorted (· < ·) l₂) (h : ∀ x, x ∈ l₁ ↔ x ∈ l₂) : l₁ = l₂ :=
  List.eq_of_perm_of_sorted ((List.perm_ext_iff_of_nodup h₁.nodup h₂.nodup).2 h) h₁ h₂

theorem and_query_comm (A B : Posting) (hA : List.Sorted (· < ·) A)
    (hB : List.Sorted (· < ·) B) : and_query A B = and_query B A :=
  sorted_lt_eq_of_mem_iff (and_query_sorted A B hA) (and_query_sorted B A hB)
    (fun x => by rw [and_query_mem A B hA hB x, and_query_mem B A hB hA x]; exact And.comm)

theorem or_query_mem : ∀ A B : Posting, ∀ x, x ∈ or_query A B ↔ x ∈ A ∨ x ∈ B := by
  intro A B
  induction A, B using or_query.induct with
  | case1 B => simp [or_query]
  | case2 A h => rw [or_query_nil_right]; simp
  | case3 as b bs ih =>
    intro x
    rw [or_query_cons_eq]
    simp only [List.mem_cons, ih]
    tauto
  | case4 a as b bs hne hlt ih =>
    intro x
    rw [or_query_cons_lt hlt]
    simp only [List.mem_cons, ih]
    tauto
  | case5 a as b bs hne hnlt ih =>
    intro x
    rw [or_query_cons_gt (lt_of_le_of_ne (not_lt.1 hnlt) (fun h => hne h.symm))]
    simp only [List.mem_cons, ih]
    tauto

theorem or_query_sorted : ∀ A B : Posting, List.Sorted (· < ·) A →
    List.Sorted (· < ·) B → List.Sorted (· < ·) (or_query A B) := by
  intro A B
  induction A, B using or_query.induct with
  | case1 B => intro _ hB; simpa [or_query] using hB
  | case2 A h => intro hA _; rwa [or_query_nil_right]
  | case3 as b bs ih =>
    intro hA hB
    rw [or_query_cons_eq]
    refine List.sorted_cons.2 ⟨fun y hy => ?_, ih (List.sorted_cons.1 hA).2 (List.sorted_cons.1 hB).2⟩
    rcases (or_query_mem as bs y).1 hy with h | h
    · exact (List.sorted_cons.1 hA).1 y h
    · exact (List.sorted_cons.1 hB).1 y h
  | case4 a as b bs hne hlt ih =>
    intro hA hB
    rw [or_query_cons_lt hlt]
    refine List.sorted_cons.2 ⟨fun y hy => ?_, ih (List.sorted_cons.1 hA).2 hB⟩
    rcases (or_query_mem as (b :: bs) y).1 hy with h | h
    · exact (List.sorted_cons.1 hA).1 y h
    · rcases List.mem_cons.1 h with rfl | h
      · exact hlt
      · exact lt_trans hlt ((List.sorted_cons.1 hB).1 y h)
  | case5 a as b bs hne hnlt ih =>
    intro hA hB
    have hba : b < a := lt_of_le_of_ne (not_lt.1 hnlt) (fun h => hne h.symm)
    rw [or_query_cons_gt hba]
    refine List.sorted_cons.2 ⟨fun y hy => ?_, ih hA (List.sorted_cons.1 hB).2⟩
    rcases (or_query_mem (a :: as) bs y).1 hy with h | h
    · rcases List.mem_cons.1 h with rfl | h
      · exact hba
      · exact lt_trans hba ((List.sorted_cons.1 hA).1 y h)
    · exact (List.sorted_cons.1 hB).1 y h

theorem or_query_length : ∀ A B : Posting,
    (or_query A B).length ≤ A.length + B.length := by
  intro A B
  induction A, B using or_query.induct with
  | case1 B => simp [or_query]
  | case2 A h => rw [or_query_nil_right]; simp
  | case3 as b bs ih =>
    rw [or_query_cons_eq]
    simp only [List.length_cons]
    omega
  | case4 a as b bs hne hlt ih =>
    rw [or_query_cons_lt hlt]
    simp only [List.length_cons] at ih ⊢
    omega
  | case5 a as b bs hne hnlt ih =>
    rw [or_query_cons_gt (lt_of_le_of_ne (not_lt.1 hnlt) (fun h => hne h.symm))]
    simp only [List.length_cons] at ih ⊢
    omega

theorem not_query_mem : ∀ U B : Posting, List.Sorted (· < ·) U →
    List.Sorted (· < ·) B → ∀ x, x ∈ not_query U B ↔ x ∈ U ∧ x ∉ B := by
  intro U B
  induction U, B using not_query.induct with
  | case1 B => simp [not_query]
  | case2 U h => rw [not_query_nil_right]; simp
  | case3 as b bs ih =>
    intro hU hB x
    have ih' := ih (List.sorted_cons.1 hU).2 (List.sorted_cons.1 hB).2 x
    rw [not_query_cons_eq, ih']
    simp only [List.mem_cons, not_or]
    constructor
    · rintro ⟨hx, hnx⟩
      exact ⟨Or.inr hx, fun he =>
        absurd ((List.sorted_cons.1 hU).1 x hx) (by simp [he]), hnx⟩
    · rintro ⟨rfl | hx, hne, hnx⟩
      · exact absurd rfl hne
      · exact ⟨hx, hnx⟩
  | case4 a as b bs hne hlt ih =>
    intro hU hB x
    have ih' := ih (List.sorted_cons.1 hU).2 hB x
    have ha : ¬(a = b ∨ a ∈ bs) := by
      rintro (rfl | h)
      · exact hne rfl
      · exact absurd (lt_trans hlt ((List.sorted_cons.1 hB).1 a h)) (lt_irrefl a)
    rw [not_query_cons_lt hlt]
    simp only [List.mem_cons, ih']
    constructor
    · rintro (rfl | ⟨hx, hnx⟩)
      · exact ⟨Or.inl rfl, ha⟩
      · exact ⟨Or.inr hx, hnx⟩
    · rintro ⟨rfl | hx, hnx⟩
      · exact Or.inl rfl
      · exact Or.inr ⟨hx, hnx⟩
  | case5 a as b bs hne hnlt ih =>
    intro hU hB x
    have hba : b < a := lt_of_le_of_ne (not_lt.1 hnlt) (fun h => hne h.symm)
    have ih' := ih hU (List.sorted_cons.1 hB).2 x
    have hxb : ∀ y, y ∈ a :: as → ¬y = b := by
      intro y hy he
      rcases List.mem_cons.1 hy with rfl | hy
      · exact hne he
      · exact absurd (lt_trans hba ((List.sorted_cons.1 hU).1 y hy)) (by simp [he])
    rw [not_query_cons_gt hba, ih']
    simp only [List.mem_cons, not_or]
    constructor
    · rintro ⟨hx, hnx⟩
      exact ⟨hx, hxb x (List.mem_cons.2 hx), hnx⟩
    · rintro ⟨hx, _, hnx⟩
      exact ⟨hx, hnx⟩

theorem not_query_sorted : ∀ U B : Posting, List.Sorted (· < ·) U →
    List.Sorted (· < ·) B → List.Sorted (· < ·) (not_query U B) := by
  intro U B
  induction U, B using not_query.induct with
  | case1 B => intro _ _; simp [not_query]
  | case2 U h => intro hU _; rwa [not_query_nil_right]
  | case3 as b bs ih =>
    intro hU hB
    rw [not_query_cons_eq]
    exact ih (List.sorted_cons.1 hU).2 (List.sorted_cons.1 hB).2
  | case4 a as b bs hne hlt ih =>
    intro hU hB
    rw [not_query_cons_lt hlt]
    refine List.sorted_cons.2 ⟨fun y hy => ?_, ih (List.sorted_cons.1 hU).2 hB⟩
    have := (not_query_mem as (b :: bs) (List.sorted_cons.1 hU).2 hB y).1 hy
    exact (List.sorted_cons.1 hU).1 y this.1
  | case5 a as b bs hne hnlt ih =>
    intro hU hB
    rw [not_query_cons_gt (lt_of_le_of_ne (not_lt.1 hnlt) (fun h => hne h.symm))]
    exact ih hU (List.sorted_cons.1 hB).2

/-! ### Lemmas about the posting store and index construction -/

theorem lookup_mem : ∀ (s : Store) (t : String) (v : Posting),
    s.lookup t = some v → (t, v) ∈ s := by
  intro s t v
  induction s with
  | nil => intro h; simp [List.lookup] at h
  | cons p rest ih =>
    obtain ⟨k, w⟩ := p
    by_cases h : t = k
    · subst h
      simp [List.lookup]
      rintro rfl
      exact Or.inl rfl
    · simp only [List.lookup, beq_eq_false_iff_ne.2 h]
      intro hl
      exact List.mem_cons_of_mem _ (ih hl)

theorem ddGetItem_fst (s : Store) (t : String) :
    (ddGetItem s t).1 = get_posting_list s t := by
  unfold ddGetItem get_posting_list
  cases h : s.lookup t <;> simp [h]

theorem get_posting_list_append_empty (s : Store) (t t' : String) :
    get_posting_list (s ++ [(t, [])]) t' = get_posting_list s t' := by
  unfold get_posting_list
  induction s with
  | nil =>
    by_cases h : t' = t
    · subst h; simp [List.lookup]
    · simp [List.lookup, beq_eq_false_iff_ne.2 h]
  | cons p rest ih =>
    obtain ⟨k, v⟩ := p
    by_cases h : t' = k
    · subst h; simp [List.lookup]
    · simpa only [List.cons_append, List.lookup, beq_eq_false_iff_ne.2 h] using ih

/-- Reading the `defaultdict` can add a key, but the posting list any term
maps to (with `[]` for an absent term) is unchanged. -/
theorem get_posting_list_ddGetItem_snd (s : Store) (t t' : String) :
    get_posting_list (ddGetItem s t).2 t' = get_posting_list s t' := by
  unfold ddGetItem
  cases h : s.lookup t with
  | some v => simp [h]
  | none => simp only [h]; exact get_posting_list_append_empty s t t'

theorem lookup_sort_posting_list (s : Store) (t : String) :
    (sort_posting_list s).lookup t = (s.lookup t).map sortDedup := by
  induction s with
  | nil => simp [sort_posting_list, List.lookup]
  | cons p rest ih =>
    obtain ⟨k, v⟩ := p
    by_cases h : t = k
    · subst h; simp [sort_posting_list, List.lookup]
    · simpa only [sort_posting_list, List.map_cons, List.lookup,
        beq_eq_false_iff_ne.2 h] using ih

theorem sortDedup_sorted (l : Posting) : List.Sorted (· < ·) (sortDedup l) := by
  have hs : List.Sorted (· ≤ ·) (sortDedup l) := List.sorted_insertionSort _ _
  have hperm : (sortDedup l).Perm l.dedup := List.perm_insertionSort _ _
  exact hs.lt_of_le (hperm.nodup_iff.2 (List.nodup_dedup l))

theorem sortDedup_mem (l : Posting) (x : Nat) : x ∈ sortDedup l ↔ x ∈ l :=
  ((List.perm_insertionSort _ _).mem_iff).trans List.mem_dedup

/-- Every posting list in the store mentions only ids below `N`. -/
def StoreBound (N : Nat) (s : Store) : Prop :=
  ∀ p ∈ s, ∀ x ∈ p.2, x < N

theorem storeBound_mono {N M : Nat} (h : N ≤ M) {s : Store}
    (hs : StoreBound N s) : StoreBound M s :=
  fun p hp x hx => lt_of_lt_of_le (hs p hp x hx) h

theorem storeAppend_bound {N i : Nat} (hi : i < N) :
    ∀ (s : Store) (t : String), StoreBound N s → StoreBound N (storeAppend s t i) := by
  intro s t
  induction s with
  | nil =>
    intro _ p hp x hx
    rcases List.mem_singleton.1 hp with rfl
    rcases List.mem_singleton.1 hx with rfl
    exact hi
  | cons q rest ih =>
    obtain ⟨k, v⟩ := q
    intro hs
    by_cases h : k = t
    · simp only [storeAppend, if_pos h]
      intro p hp x hx
      rcases List.mem_cons.1 hp with rfl | hp
      · rcases List.mem_append.1 hx with hx | hx
        · exact hs (k, v) (List.mem_cons_self _ _) x hx
        · rcases List.mem_singleton.1 hx with rfl
          exact hi
      · exact hs p (List.mem_cons_of_mem _ hp) x hx
    · simp only [storeAppend, if_neg h]
      intro p hp x hx
      rcases List.mem_cons.1 hp with rfl | hp
      · exact hs (k, v) (List.mem_cons_self _ _) x hx
      · exact ih (fun q hq => hs q (List.mem_cons_of_mem _ hq)) p hp x hx

theorem update_posting_list_bound {N i : Nat} (hi : i < N) (doc : String) :
    ∀ s : Store, StoreBound N s → StoreBound N (update_posting_list s doc i) := by
  unfold update_posting_list
  generalize pySplitWhite doc = terms
  induction terms with
  | nil => intro s hs; simpa using hs
  | cons t ts ih =>
    intro s hs
    rw [List.foldl_cons]
    apply ih
    by_cases h : t ≠ ""
    · simpa only [if_pos h] using storeAppend_bound hi s t hs
    · simpa only [if_neg h] using hs

theorem foldl_buildStep_docs : ∀ (ds : List ParsedDoc)
    (docs : List (Nat × DocEntry)) (store : Store) (i : Nat),
    (ds.foldl buildStep (docs, store, i)).1 =
      docs ++ (List.enumFrom i ds).map
        (fun p => (p.1, ⟨p.2.contents, pyStrip p.2.docno⟩)) := by
  intro ds
  induction ds with
  | nil => intro docs store i; simp
  | cons d ds ih =>
    intro docs store i
    rw [List.foldl_cons]
    show (ds.foldl buildStep (buildStep (docs, store, i) d)).1 = _
    rw [show buildStep (docs, store, i) d =
      (docs ++ [(i, ⟨d.contents, pyStrip d.docno⟩)],
        update_posting_list store d.contents i, i + 1) from rfl]
    rw [ih]
    simp [List.enumFrom_cons]

theorem foldl_buildStep_counter : ∀ (ds : List ParsedDoc)
    (acc : List (Nat × DocEntry) × Store × Nat),
    (ds.foldl buildStep acc).2.2 = acc.2.2 + ds.length := by
  intro ds
  induction ds with
  | nil => intro acc; simp
  | cons d ds ih =>
    intro acc
    obtain ⟨docs, store, i⟩ := acc
    rw [List.foldl_cons, ih]
    simp [buildStep]
    omega

theorem foldl_buildStep_bound : ∀ (ds : List ParsedDoc)
    (docs : List (Nat × DocEntry)) (store : Store) (i : Nat),
    StoreBound i store →
    StoreBound (i + ds.length) (ds.foldl buildStep (docs, store, i)).2.1 := by
  intro ds
  induction ds with
  | nil => intro docs store i h; simpa using h
  | cons d ds ih =>
    intro docs store i h
    rw [List.foldl_cons]
    have h1 : StoreBound (i + 1) (update_posting_list store d.contents i) :=
      update_posting_list_bound (Nat.lt_succ_self i) d.contents store
        (storeBound_mono (Nat.le_succ i) h)
    have h2 := ih (docs ++ [(i, ⟨d.contents, pyStrip d.docno⟩)])
      (update_posting_list store d.contents i) (i + 1) h1
    have e : i + 1 + ds.length = i + (d :: ds).length := by
      simp [List.length_cons]; omega
    rw [e] at h2
    exact h2

theorem lookup_enumFrom_map : ∀ (ds : List ParsedDoc) (i j : Nat),
    ((List.enumFrom i ds).map
      (fun p => ((p.1 : Nat), (⟨p.2.contents, pyStrip p.2.docno⟩ : DocEntry)))).lookup (i + j) =
      (ds[j]?).map (fun d => (⟨d.contents, pyStrip d.docno⟩ : DocEntry)) := by
  intro ds
  induction ds with
  | nil => intro i j; simp
  | cons d ds ih =>
    intro i j
    cases j with
    | zero => simp [List.enumFrom_cons, List.lookup]
    | succ j =>
      have hne : ¬ i + (j + 1) = i := by omega
      rw [List.enumFrom_cons]
      simp only [List.map_cons, List.lookup, beq_eq_false_iff_ne.2 hne]
      have := ih (i + 1) j
      rw [show i + 1 + j = i + (j + 1) by omega] at this
      rw [this]
      simp

/-! ### The sort key of the frequency report is a total order -/

theorem charListLeb_total : ∀ as bs : List Char,
    charListLeb as bs = true ∨ charListLeb bs as = true := by
  intro as
  induction as with
  | nil => intro bs; left; rfl
  | cons a as ih =>
    intro bs
    cases bs with
    | nil => right; rfl
    | cons b bs =>
      by_cases h : a = b
      · subst h
        simp only [charListLeb, if_pos rfl]
        exact ih bs
      · rcases lt_or_gt_of_ne h with hlt | hgt
        · left; simpa [charListLeb, h] using hlt
        · have hba : ¬b = a := fun hh => h hh.symm
          right; simpa [charListLeb, hba] using hgt

theorem charListLeb_trans : ∀ as bs cs : List Char, charListLeb as bs = true →
    charListLeb bs cs = true → charListLeb as cs = true := by
  intro as
  induction as with
  | nil => intros; rfl
  | cons a as ih =>
    intro bs cs h1 h2
    cases bs with
    | nil => simp [charListLeb] at h1
    | cons b bs =>
      cases cs with
      | nil => simp [charListLeb] at h2
      | cons c cs =>
        by_cases hab : a = b
        · subst hab
          by_cases hbc : a = c
          · subst hbc
            simp only [charListLeb, if_pos rfl] at h1 h2 ⊢
            exact ih bs cs h1 h2
          · have h2' : a < c := by simpa [charListLeb, hbc] using h2
            simpa [charListLeb, hbc] using h2'
        · have h1' : a < b := by simpa [charListLeb, hab] using h1
          by_cases hbc : b = c
          · subst hbc
            simpa [charListLeb, hab] using h1'
          · have h2' : b < c := by simpa [charListLeb, hbc] using h2
            have hac : a < c := lt_trans h1' h2'
            simpa [charListLeb, ne_of_lt hac] using hac

theorem charListLeb_antisymm : ∀ as bs : List Char,
    charListLeb as bs = true → charListLeb bs as = true → as = bs := by
  intro as
  induction as with
  | nil =>
    intro bs _ h2
    cases bs with
    | nil => rfl
    | cons b bs => simp [charListLeb] at h2
  | cons a as ih =>
    intro bs h1 h2
    cases bs with
    | nil => simp [charListLeb] at h1
    | cons b bs =>
      by_cases hab : a = b
      · subst hab
        simp only [charListLeb, if_pos rfl] at h1 h2
        rw [ih bs h1 h2]
      · have hba : ¬b = a := fun hh => hab hh.symm
        have h1' : a < b := by simpa [charListLeb, hab] using h1
        have h2' : b < a := by simpa [charListLeb, hba] using h2
        exact absurd h1' (lt_asymm h2')

theorem freqLE_total : ∀ a b : String × Nat, freqLE a b ∨ freqLE b a := by
  intro a b
  rcases Nat.lt_trichotomy a.2 b.2 with h | h | h
  · exact Or.inl (Or.inl h)
  · rcases charListLeb_total a.1.data b.1.data with hc | hc
    · exact Or.inl (Or.inr ⟨h, hc⟩)
    · exact Or.inr (Or.inr ⟨h.symm, hc⟩)
  · exact Or.inr (Or.inl h)

theorem freqLE_trans : ∀ a b c : String × Nat, freqLE a b → freqLE b c → freqLE a c := by
  rintro a b c (h1 | ⟨e1, s1⟩) (h2 | ⟨e2, s2⟩)
  · exact Or.inl (lt_trans h1 h2)
  · exact Or.inl (e2 ▸ h1)
  · exact Or.inl (e1 ▸ h2)
  · exact Or.inr ⟨e1.trans e2, charListLeb_trans _ _ _ s1 s2⟩

theorem freqLE_antisymm : ∀ a b : String × Nat, freqLE a b → freqLE b a → a = b := by
  rintro ⟨ta, ca⟩ ⟨tb, cb⟩ (h1 | ⟨e1, s1⟩) (h2 | ⟨e2, s2⟩)
  · exact absurd h1 (lt_asymm h2)
  · have h1' : ca < cb := h1
    have e2' : cb = ca := e2
    omega
  · have h2' : cb < ca := h2
    have e1' : ca = cb := e1
    omega
  · have hd : ta.data = tb.data := charListLeb_antisymm _ _ s1 s2
    have ht : ta = tb := congrArg String.mk hd
    have e1' : ca = cb := e1
    cases ht
    cases e1'
    rfl

instance : IsTotal (String × Nat) freqLE := ⟨freqLE_total⟩
instance : IsTrans (String × Nat) freqLE := ⟨freqLE_trans⟩
instance : IsAntisymm (String × Nat) freqLE := ⟨freqLE_antisymm⟩
instance : IsTotal (String × Nat) freqGE := ⟨fun a b => Or.symm (freqLE_total a b)⟩
instance : IsTrans (String × Nat) freqGE := ⟨fun _ _ _ h1 h2 => freqLE_trans _ _ _ h2 h1⟩
instance : IsAntisymm (String × Nat) freqGE := ⟨fun a b h1 h2 => freqLE_antisymm a b h2 h1⟩

/-! ### Frequency report lemmas -/

theorem top_bottom_length (store : Store) (n : Nat) (top : Bool) :
    (top_bottom_n_terms store n top).length = min n store.length := by
  unfold top_bottom_n_terms
  cases top <;>
    simp [List.length_take, (List.perm_insertionSort _ _).length_eq, term_frequencies]

theorem top_bottom_sorted_true (store : Store) (n : Nat) :
    List.Sorted freqGE (top_bottom_n_terms store n true) := by
  unfold top_bottom_n_terms
  exact List.Pairwise.sublist (List.take_sublist _ _) (List.sorted_insertionSort _ _)

theorem top_bottom_sorted_false (store : Store) (n : Nat) :
    List.Sorted freqLE (top_bottom_n_terms store n false) := by
  unfold top_bottom_n_terms
  exact List.Pairwise.sublist (List.take_sublist _ _) (List.sorted_insertionSort _ _)

/-- The report is the `n`-prefix of any descending-sorted arrangement of the
`(term, cardinality)` pairs (uniqueness of the sorted arrangement). -/
theorem top_bottom_eq_take_true (store : Store) (n : Nat) (l : List (String × Nat))
    (hp : l.Perm (term_frequencies store)) (hs : List.Sorted freqGE l) :
    top_bottom_n_terms store n true = l.take n := by
  unfold top_bottom_n_terms
  simp only [if_pos rfl]
  congr 1
  exact List.eq_of_perm_of_sorted ((List.perm_insertionSort _ _).trans hp.symm)
    (List.sorted_insertionSort _ _) hs

theorem top_bottom_eq_take_false (store : Store) (n : Nat) (l : List (String × Nat))
    (hp : l.Perm (term_frequencies store)) (hs : List.Sorted freqLE l) :
    top_bottom_n_terms store n false = l.take n := by
  unfold top_bottom_n_terms
  simp only [if_neg Bool.false_ne_true]
  congr 1
  exact List.eq_of_perm_of_sorted ((List.perm_insertionSort _ _).trans hp.symm)
    (List.sorted_insertionSort _ _) hs

theorem top_bottom_all (store : Store) (n : Nat) (top : Bool)
    (h : store.length ≤ n) :
    (top_bottom_n_terms store n top).Perm (term_frequencies store) := by
  unfold top_bottom_n_terms
  have hlen : ∀ r : (String × Nat) → (String × Nat) → Prop, ∀ _ : DecidableRel r,
      (List.insertionSort r (term_frequencies store)).length ≤ n := by
    intro r hr
    rw [(List.perm_insertionSort _ _).length_eq]
    simpa [term_frequencies] using h
  cases top
  · simp only [if_neg Bool.false_ne_true]
    rw [List.take_of_length_le (hlen freqLE inferInstance)]
    exact List.perm_insertionSort _ _
  · simp only [if_true]
    rw [List.take_of_length_le (hlen freqGE inferInstance)]
    exact List.perm_insertionSort _ _

theorem and_query_nil_left (l : Posting) : and_query [] l = [] := by
  simp [and_query]

theorem or_query_nil_left (l : Posting) : or_query [] l = l := by
  simp [or_query]

/-! ### Evaluation-step lemmas for the postfix token loop -/

theorem evalTokens_term (all_docs : Posting) (word : String) (rest : List String)
    (stack : List Posting) (store : Store) (hw : word ∉ operators) :
    evalTokens all_docs (word :: rest) stack store =
      evalTokens all_docs rest ((ddGetItem store (pyLower word)).1 :: stack)
        (ddGetItem store (pyLower word)).2 := by
  have h := hw
  simp only [operators, List.mem_cons, List.not_mem_nil, or_false, not_or] at h
  obtain ⟨h1, h2, h3⟩ := h
  simp only [evalTokens, if_neg h1, if_neg h2, if_neg h3]

theorem evalTokens_and (all_docs : Posting) (rest : List String)
    (l1 l2 : Posting) (stack : List Posting) (store : Store) :
    evalTokens all_docs ("AND" :: rest) (l2 :: l1 :: stack) store =
      evalTokens all_docs rest (and_query l1 l2 :: stack) store := by
  simp [evalTokens]

theorem evalTokens_or (all_docs : Posting) (rest : List String)
    (l1 l2 : Posting) (stack : List Posting) (store : Store) :
    evalTokens all_docs ("OR" :: rest) (l2 :: l1 :: stack) store =
      evalTokens all_docs rest (or_query l1 l2 :: stack) store := by
  simp [evalTokens]

theorem evalTokens_not (all_docs : Posting) (rest : List String)
    (l1 : Posting) (stack : List Posting) (store : Store) :
    evalTokens all_docs ("NOT" :: rest) (l1 :: stack) store =
      evalTokens all_docs rest (not_query all_docs l1 :: stack) store := by
  simp [evalTokens]

/-! ### Claim theorems -/

/-- C3: for strictly ascending, duplicate-free lists `A` and `B`, `and_query`
returns the strictly ascending sorted intersection — a subsequence of both
inputs, of length at most `min |A| |B|`; `and_query A A = A` and
`and_query A B = and_query B A`. -/
theorem and_query_spec (A B : Posting) (hA : List.Sorted (· < ·) A)
    (hB : List.Sorted (· < ·) B) :
    List.Sorted (· < ·) (and_query A B)
    ∧ (∀ x, x ∈ and_query A B ↔ x ∈ A ∧ x ∈ B)
    ∧ (and_query A B).Sublist A ∧ (and_query A B).Sublist B
    ∧ (and_query A B).length ≤ min A.length B.length
    ∧ and_query A A = A
    ∧ and_query A B = and_query B A :=
  ⟨and_query_sorted A B hA, and_query_mem A B hA hB,
   and_query_sublist_left A B, and_query_sublist_right A B,
   le_min (and_query_sublist_left A B).length_le (and_query_sublist_right A B).length_le,
   and_query_self A, and_query_comm A B hA hB⟩

theorem and_query_spec_witness :
    List.Sorted (· < ·) ([1, 3, 5] : Posting)
    ∧ and_query [1, 3, 5] [3, 5, 7] = and_query [3, 5, 7] [1, 3, 5]
    ∧ and_query [1, 3, 5] [1, 3, 5] = [1, 3, 5] :=
  ⟨by decide,
   (and_query_spec [1, 3, 5] [3, 5, 7] (by decide) (by decide)).2.2.2.2.2.2,
   (and_query_spec [1, 3, 5] [3, 5, 7] (by decide) (by decide)).2.2.2.2.2.1⟩

/-- C4: for strictly ascending, duplicate-free lists `A` and `B`, `or_query`
returns the strictly ascending, duplicate-free sorted union — every element
of `A` or `B` occurs exactly once, the length is at most `|A| + |B|`, and
`or_query A A = A`. -/
theorem or_query_spec (A B : Posting) (hA : List.Sorted (· < ·) A)
    (hB : List.Sorted (· < ·) B) :
    List.Sorted (· < ·) (or_query A B)
    ∧ (or_query A B).Nodup
    ∧ (∀ x, x ∈ or_query A B ↔ x ∈ A ∨ x ∈ B)
    ∧ (∀ x, x ∈ A ∨ x ∈ B → (or_query A B).count x = 1)
    ∧ (or_query A B).length ≤ A.length + B.length
    ∧ or_query A A = A := by
  have hs := or_query_sorted A B hA hB
  refine ⟨hs, hs.nodup, or_query_mem A B, ?_, or_query_length A B, or_query_self A⟩
  intro x hx
  exact List.count_eq_one_of_mem hs.nodup ((or_query_mem A B x).2 hx)

theorem or_query_spec_witness :
    (or_query [1, 3] [2, 3]).count 2 = 1 ∧ or_query [1, 3] [1, 3] = [1, 3] :=
  ⟨(or_query_spec [1, 3] [2, 3] (by decide) (by decide)).2.2.2.1 2 (by decide),
   (or_query_spec [1, 3] [2, 3] (by decide) (by decide)).2.2.2.2.2⟩

/-- C5: for a strictly ascending, duplicate-free list `B` whose elements lie
in the universe `U = [0, ..., N-1]`, `not_query U B` is exactly `U \ B` in
ascending order; `and_query B (not_query U B) = []` and
`not_query U (not_query U B) = B`. -/
theorem not_query_spec (N : Nat) (B : Posting) (hB : List.Sorted (· < ·) B)
    (hBU : ∀ b ∈ B, b < N) :
    List.Sorted (· < ·) (not_query (List.range N) B)
    ∧ (∀ x, x ∈ not_query (List.range N) B ↔ x ∈ List.range N ∧ x ∉ B)
    ∧ and_query B (not_query (List.range N) B) = []
    ∧ not_query (List.range N) (not_query (List.range N) B) = B := by
  have hU : List.Sorted (· < ·) (List.range N) := List.pairwise_lt_range N
  have hC := not_query_sorted (List.range N) B hU hB
  have hmem := not_query_mem (List.range N) B hU hB
  refine ⟨hC, hmem, ?_, ?_⟩
  · apply List.eq_nil_iff_forall_not_mem.2
    intro x hx
    have h := (and_query_mem B _ hB hC x).1 hx
    exact ((hmem x).1 h.2).2 h.1
  · apply sorted_lt_eq_of_mem_iff (not_query_sorted _ _ hU hC) hB
    intro x
    rw [not_query_mem _ _ hU hC x]
    constructor
    · rintro ⟨hxU, hxC⟩
      by_contra hxB
      exact hxC ((hmem x).2 ⟨hxU, hxB⟩)
    · intro hxB
      refine ⟨List.mem_range.2 (hBU x hxB), fun hc => ?_⟩
      exact ((hmem x).1 hc).2 hxB

theorem not_query_spec_witness :
    and_query [1, 3] (not_query (List.range 4) [1, 3]) = []
    ∧ not_query (List.range 4) (not_query (List.range 4) [1, 3]) = [1, 3] :=
  ⟨(not_query_spec 4 [1, 3] (by decide) (by decide)).2.2.1,
   (not_query_spec 4 [1, 3] (by decide) (by decide)).2.2.2⟩

/-- C7: after `InvertedIndex` construction (including the
`sort_posting_list` finalization), every term's posting list is strictly
ascending with no repeated value, and every id in it is the internal id of an
existing document (it is below the number of documents indexed). -/
theorem posting_lists_sorted_and_bounded (ds : List ParsedDoc) (t : String)
    (l : Posting) (h : (buildIndex ds).posting_list.lookup t = some l) :
    List.Sorted (· < ·) l ∧ (∀ x ∈ l, x < ds.length)
    ∧ (buildIndex ds).documents.length = ds.length := by
  have hb : (buildIndex ds).posting_list =
      sort_posting_list (ds.foldl buildStep ([], [], 0)).2.1 := rfl
  rw [hb, lookup_sort_posting_list] at h
  have hdoc : (buildIndex ds).documents.length = ds.length := by
    show (ds.foldl buildStep ([], [], 0)).1.length = _
    rw [foldl_buildStep_docs]
    simp [List.enumFrom_length]
  cases hr : (ds.foldl buildStep ([], [], 0)).2.1.lookup t with
  | none => rw [hr] at h; simp at h
  | some raw =>
    rw [hr] at h
    have h' : some (sortDedup raw) = some l := h
    obtain rfl : sortDedup raw = l := by injection h'
    refine ⟨sortDedup_sorted raw, ?_, hdoc⟩
    intro x hx
    have hxraw : x ∈ raw := (sortDedup_mem raw x).1 hx
    have hbound := foldl_buildStep_bound ds [] [] 0
      (fun p hp => absurd hp (List.not_mem_nil p))
    have := hbound (t, raw) (lookup_mem _ _ _ hr) x hxraw
    simpa using this

theorem posting_lists_witness :
    List.Sorted (· < ·) ([0, 1] : Posting) ∧ (∀ x ∈ ([0, 1] : Posting), x < 2) :=
  ⟨(posting_lists_sorted_and_bounded [⟨"D1", "cat dog cat"⟩, ⟨"D2", "dog"⟩]
      "dog" [0, 1] (by decide)).1,
   (posting_lists_sorted_and_bounded [⟨"D1", "cat dog cat"⟩, ⟨"D2", "dog"⟩]
      "dog" [0, 1] (by decide)).2.1⟩

/-- C8: `top_bottom_n_terms n top` is the `n`-prefix of the `(term,
cardinality)` pairs sorted by the key `(cardinality, term)` — descending on
both components when `top = true`, ascending on both when `top = false` —
returning everything when fewer than `n` terms exist; on the store
`{a: 5, b: 3, c: 5}` it yields `[(c,5), (a,5)]` and `[(b,3), (a,5)]`. -/
theorem top_bottom_spec (store : Store) (n : Nat) :
    top_bottom_n_terms [("a", [0, 1, 2, 3, 4]), ("b", [0, 1, 2]),
        ("c", [0, 1, 2, 3, 4])] 2 true = [("c", 5), ("a", 5)]
    ∧ top_bottom_n_terms [("a", [0, 1, 2, 3, 4]), ("b", [0, 1, 2]),
        ("c", [0, 1, 2, 3, 4])] 2 false = [("b", 3), ("a", 5)]
    ∧ (top_bottom_n_terms store n true).length = min n store.length
    ∧ (top_bottom_n_terms store n false).length = min n store.length
    ∧ List.Sorted freqGE (top_bottom_n_terms store n true)
    ∧ List.Sorted freqLE (top_bottom_n_terms store n false)
    ∧ (∀ l, l.Perm (term_frequencies store) → List.Sorted freqGE l →
        top_bottom_n_terms store n true = l.take n)
    ∧ (∀ l, l.Perm (term_frequencies store) → List.Sorted freqLE l →
        top_bottom_n_terms store n false = l.take n)
    ∧ (store.length ≤ n → (top_bottom_n_terms store n true).Perm (term_frequencies store))
    ∧ (store.length ≤ n → (top_bottom_n_terms store n false).Perm (term_frequencies store)) :=
  ⟨by decide, by decide,
   top_bottom_length store n true, top_bottom_length store n false,
   top_bottom_sorted_true store n, top_bottom_sorted_false store n,
   fun l hp hs => top_bottom_eq_take_true store n l hp hs,
   fun l hp hs => top_bottom_eq_take_false store n l hp hs,
   top_bottom_all store n true, top_bottom_all store n false⟩

theorem top_bottom_spec_witness :
    ([("c", 5), ("a", 5), ("b", 3)] : List (String × Nat)).Perm
      (term_frequencies [("a", [0, 1, 2, 3, 4]), ("b", [0, 1, 2]), ("c", [0, 1, 2, 3, 4])])
    ∧ top_bottom_n_terms [("a", [0, 1, 2, 3, 4]), ("b", [0, 1, 2]),
        ("c", [0, 1, 2, 3, 4])] 2 true =
      ([("c", 5), ("a", 5), ("b", 3)] : List (String × Nat)).take 2 :=
  ⟨by decide,
   (top_bottom_spec [("a", [0, 1, 2, 3, 4]), ("b", [0, 1, 2]),
      ("c", [0, 1, 2, 3, 4])] 2).2.2.2.2.2.2.1
     [("c", 5), ("a", 5), ("b", 3)] (by decide) (by decide)⟩

/-- C10: index construction is deterministic — the same ordered input
sequence yields the same `InvertedIndex` (identical id assignments and
posting lists), and the `j`-th document of the sequence receives internal
id `j`. -/
theorem build_deterministic (ds ds' : List ParsedDoc) (h : ds = ds')
    (j : Nat) (d : ParsedDoc) (hj : ds[j]? = some d) :
    buildIndex ds = buildIndex ds'
    ∧ (buildIndex ds).documents.lookup j = some ⟨d.contents, pyStrip d.docno⟩ := by
  refine ⟨by rw [h], ?_⟩
  have hd : (buildIndex ds).documents =
      (List.enumFrom 0 ds).map (fun p => (p.1, ⟨p.2.contents, pyStrip p.2.docno⟩)) := by
    show (ds.foldl buildStep ([], [], 0)).1 = _
    rw [foldl_buildStep_docs]
    simp
  rw [hd]
  have hl := lookup_enumFrom_map ds 0 j
  rw [Nat.zero_add] at hl
  rw [hl, hj]
  rfl

theorem build_deterministic_witness :
    (buildIndex [⟨"D1", "cat"⟩, ⟨"D2", "dog"⟩]).documents.lookup 1 =
      some ⟨"dog", "D2"⟩ :=
  (build_deterministic [⟨"D1", "cat"⟩, ⟨"D2", "dog"⟩]
    [⟨"D1", "cat"⟩, ⟨"D2", "dog"⟩] rfl 1 ⟨"D2", "dog"⟩ (by decide)).2

/-- C1: evaluating a query whose term token is absent from the index mutates
the shared `posting_list` store — `eval_boolean_query` reads the
`defaultdict` with `posting_list[word.lower()]`, which inserts the absent
term with an empty posting list.  On the index built from one document
`"cat"`, the query `"dog"` returns `[]` but grows the store by the key
`"dog"`, so the store is not left unchanged. -/
theorem absent_term_mutates_posting_store :
    (buildIndex [⟨"D1", "cat"⟩]).posting_list = [("cat", [0])]
    ∧ eval_boolean_query (buildIndex [⟨"D1", "cat"⟩]) "dog" =
        some ([], [("cat", [0]), ("dog", [])])
    ∧ [("cat", [0]), ("dog", [])] ≠ (buildIndex [⟨"D1", "cat"⟩]).posting_list :=
  ⟨by decide, by decide, by decide⟩

/-- C2 counterexample: a query leaving three values on the stack (final
stack size outside `{1, 2}`) does not signal an error — `stack.pop()`
silently returns the most recently pushed value. -/
theorem three_residual_values_return_result :
    finalStack (buildIndex []) "a b c" =
      some ([[], [], []], [("a", []), ("b", []), ("c", [])])
    ∧ eval_boolean_query (buildIndex []) "a b c" =
        some ([], [("a", []), ("b", []), ("c", [])])
    ∧ eval_boolean_query (buildIndex []) "a b c" ≠ none :=
  ⟨by decide, by decide, by decide⟩

/-- C2 (amended): `eval_boolean_query` signals an error exactly when an
operator pops from a stack with fewer operands than it requires (the token
loop fails) or the final stack is empty; whenever the final stack is
non-empty — including size three or more — a result is returned. -/
theorem eval_error_characterization (idx : InvertedIndex) (q : String) :
    (eval_boolean_query idx q = none ↔
      finalStack idx q = none ∨ ∃ store, finalStack idx q = some ([], store))
    ∧ (∀ stack store, finalStack idx q = some (stack, store) → stack ≠ [] →
        ∃ r, eval_boolean_query idx q = some (r, store)) := by
  constructor
  · cases hfs : finalStack idx q with
    | none =>
      unfold eval_boolean_query
      rw [hfs]
      simp [hfs]
    | some p =>
      obtain ⟨stack, store⟩ := p
      unfold eval_boolean_query
      rw [hfs]
      rcases stack with _ | ⟨v, _ | ⟨w, _ | ⟨x, t⟩⟩⟩
      · simp only [hfs]
        constructor
        · intro _; exact Or.inr ⟨store, rfl⟩
        · intro _; trivial
      · simp [hfs]
      · simp [hfs]
      · simp [hfs]
  · intro stack store hfs hne
    unfold eval_boolean_query
    rw [hfs]
    rcases stack with _ | ⟨v, _ | ⟨w, _ | ⟨x, t⟩⟩⟩
    · exact absurd rfl hne
    · exact ⟨v, rfl⟩
    · exact ⟨and_query w v, rfl⟩
    · exact ⟨v, rfl⟩

theorem eval_error_characterization_witness :
    ∃ r, eval_boolean_query (buildIndex []) "a" = some (r, [("a", [])]) :=
  (eval_error_characterization (buildIndex []) "a").2 [[]] [("a", [])]
    (by decide) (by decide)

/-- C6: a query whose token stream is two non-operator terms `[t1, t2]`
evaluates exactly like `[t1, t2, "AND"]`: the two residual stack values are
implicitly combined with `and_query` over the (lowercased) posting-list
lookups of `t1` and `t2`; and whenever exactly one value remains on the
stack after all tokens are consumed, that value is returned directly. -/
theorem eval_two_terms_implicit_and (idx : InvertedIndex) (q q' t1 t2 : String)
    (h : tokenize q = [t1, t2]) (h' : tokenize q' = [t1, t2, "AND"])
    (h1 : t1 ∉ operators) (h2 : t2 ∉ operators) :
    eval_boolean_query idx q = eval_boolean_query idx q'
    ∧ (eval_boolean_query idx q).map Prod.fst =
        some (and_query (get_posting_list idx.posting_list (pyLower t1))
          (get_posting_list idx.posting_list (pyLower t2)))
    ∧ ∀ (r : String) (v : Posting) (store : Store),
        finalStack idx r = some ([v], store) →
          eval_boolean_query idx r = some (v, store) := by
  have e1 : finalStack idx q =
      some ([(ddGetItem (ddGetItem idx.posting_list (pyLower t1)).2 (pyLower t2)).1,
             (ddGetItem idx.posting_list (pyLower t1)).1],
            (ddGetItem (ddGetItem idx.posting_list (pyLower t1)).2 (pyLower t2)).2) := by
    unfold finalStack
    rw [h, evalTokens_term _ _ _ _ _ h1, evalTokens_term _ _ _ _ _ h2]
    rfl
  have e2 : finalStack idx q' =
      some ([and_query (ddGetItem idx.posting_list (pyLower t1)).1
               (ddGetItem (ddGetItem idx.posting_list (pyLower t1)).2 (pyLower t2)).1],
            (ddGetItem (ddGetItem idx.posting_list (pyLower t1)).2 (pyLower t2)).2) := by
    unfold finalStack
    rw [h', evalTokens_term _ _ _ _ _ h1, evalTokens_term _ _ _ _ _ h2, evalTokens_and]
    rfl
  refine ⟨?_, ?_, ?_⟩
  · unfold eval_boolean_query
    rw [e1, e2]
  · unfold eval_boolean_query
    rw [e1]
    show some (and_query (ddGetItem idx.posting_list (pyLower t1)).1
      (ddGetItem (ddGetItem idx.posting_list (pyLower t1)).2 (pyLower t2)).1) = _
    rw [ddGetItem_fst, ddGetItem_fst, get_posting_list_ddGetItem_snd]
  · intro r v store hfs
    unfold eval_boolean_query
    rw [hfs]

theorem eval_two_terms_witness :
    eval_boolean_query (buildIndex [⟨"D1", "cat dog"⟩]) "cat dog" =
      eval_boolean_query (buildIndex [⟨"D1", "cat dog"⟩]) "cat dog AND" :=
  (eval_two_terms_implicit_and (buildIndex [⟨"D1", "cat dog"⟩]) "cat dog"
    "cat dog AND" "cat" "dog" (by decide) (by decide) (by decide) (by decide)).1

/-- C9: an absent term is not an error — `get_posting_list` returns `[]`,
the evaluator pushes the empty posting list for an unknown (lowercased) term
token, and the empty list empties an AND, contributes nothing to an OR, and
complements to the full universe under NOT. -/
theorem unknown_term_not_error (store : Store) (t : String) (l U : Posting)
    (idx : InvertedIndex) (q : String) (habs : store.lookup t = none) :
    get_posting_list store t = []
    ∧ (ddGetItem store t).1 = []
    ∧ and_query l [] = [] ∧ and_query [] l = []
    ∧ or_query [] l = l ∧ or_query l [] = l
    ∧ not_query U [] = U
    ∧ (tokenize q = [t] → t ∉ operators →
        idx.posting_list.lookup (pyLower t) = none →
        eval_boolean_query idx q = some ([], idx.posting_list ++ [(pyLower t, [])])) := by
  refine ⟨?_, ?_, and_query_nil_right l, and_query_nil_left l,
    or_query_nil_left l, or_query_nil_right l, not_query_nil_right U, ?_⟩
  · unfold get_posting_list
    rw [habs]
    rfl
  · rw [ddGetItem_fst]
    unfold get_posting_list
    rw [habs]
    rfl
  · intro hq hop hnone
    have hv : (ddGetItem idx.posting_list (pyLower t)).1 = [] := by
      rw [ddGetItem_fst]
      unfold get_posting_list
      rw [hnone]
      rfl
    have hs : (ddGetItem idx.posting_list (pyLower t)).2 =
        idx.posting_list ++ [(pyLower t, [])] := by
      unfold ddGetItem
      rw [hnone]
    unfold eval_boolean_query finalStack
    rw [hq, evalTokens_term _ _ _ _ _ hop]
    rw [show evalTokens (List.range idx.documents.length) []
      [(ddGetItem idx.posting_list (pyLower t)).1]
      (ddGetItem idx.posting_list (pyLower t)).2 =
        some ([(ddGetItem idx.posting_list (pyLower t)).1],
          (ddGetItem idx.posting_list (pyLower t)).2) from rfl]
    rw [hv, hs]

theorem unknown_term_witness :
    get_posting_list [("cat", [0])] "dog" = []
    ∧ eval_boolean_query (buildIndex [⟨"D1", "cat"⟩]) "dog" =
        some ([], (buildIndex [⟨"D1", "cat"⟩]).posting_list ++ [(pyLower "dog", [])]) :=
  ⟨(unknown_term_not_error [("cat", [0])] "dog" [0, 2] [0, 1]
      (buildIndex [⟨"D1", "cat"⟩]) "dog" (by decide)).1,
   (unknown_term_not_error [("cat", [0])] "dog" [0, 2] [0, 1]
      (buildIndex [⟨"D1", "cat"⟩]) "dog" (by decide)).2.2.2.2.2.2.2
     (by decide) (by decide) (by decide)⟩

end HW1
